import Mathlib

/-!
Verification of the synthesizer-io core against its specification.

The development shallowly embeds the relevant Rust source files:

* `queue.rs` — the lock-free item-recycling queue (Treiber stack).
  Pointer-linked chains are modelled as Lean lists; the atomic head
  pointer of the queue becomes a plain list because the claims concern
  the single-producer/single-consumer discipline, under which every
  compare-and-swap succeeds and the operations are exactly the
  sequential list operations written here.
* `graph.rs` — node slots, `replace` with the `migrate` hook, the
  iterative topological sort and `run_graph` / `run_one_module`.
  The `link` array, which the source uses both as the DFS stack chain
  and as the result chain, is modelled by the two Lean lists `stack`
  and `result`; the `visited` array stays an explicit list.  Rust
  panics (failed `assert!`, `unwrap` of `None`, out-of-bounds index)
  are modelled by `Option`, `none` meaning a panic; the `while` loop is
  given explicit fuel, exhaustion (which cannot happen from the real
  entry states) also mapping to `none`.
* `worker.rs` — `Worker::handle_item` message dispatch.
* `modules/sin.rs` (`migrate`), `modules/adsr.rs`, `modules/biquad.rs`.

Modules are trait objects in Rust; here the graph is polymorphic in a
module-state type `M` and the trait's vtable becomes an explicit
`ModuleOps` record of pure transition functions.  Sample values are
polymorphic in `α` (`f32` in the source); the DSP claims that depend on
arithmetic are stated over `ℝ` (exact arithmetic) or over an arbitrary
linear ordered field, as the claim demands.
-/

namespace SynthIO

/-! ## Queue (`queue.rs`)

State of one queue: the chain hanging off the atomic `head` pointer,
most recently pushed element first.  `Item<T>` is an owning handle to a
heap node carrying a `T`; in the embedding an item is just its payload.
-/

/-- `Node::reverse`: reverse a singly-linked list in place.  The loop
walks `p`, prepending each node to the accumulator `q`. -/
def nodeReverse : List α → List α → List α
  | [], q => q
  | x :: p, q => nodeReverse p (x :: q)

/-- `Queue::new` — empty chain. -/
def Queue.new : List α := []

/-- `Queue::push_raw` (and therefore `send_item`): the CAS loop links the
node's `child` to the current head and installs the node as new head.
With a single producer the CAS succeeds: push is "cons". -/
def Queue.push_raw (q : List α) (x : α) : List α := x :: q

/-- `Sender::send_item` delegates to `push_raw`. -/
def Queue.send_item (q : List α) (x : α) : List α := Queue.push_raw q x

/-- `Sender::send` allocates an item (`make_item`) and delegates to
`send_item`. -/
def Queue.send (q : List α) (x : α) : List α := Queue.send_item q x

/-- Sending a whole sequence through one `Sender`, in order. -/
def Queue.sendAll (q : List α) (xs : List α) : List α :=
  xs.foldl Queue.send q

/-- `Queue::pop_all`: atomically swap the head with null, returning the
detached chain (reverse order of sending) and the emptied queue. -/
def Queue.pop_all (q : List α) : List α × List α := (q, [])

/-- `Receiver::recv_items`: `pop_all` then `Node::reverse`; yields the
drained items (in the order the iterator produces them) and the queue
state left behind. -/
def Queue.recv_items (q : List α) : List α × List α :=
  let (chain, q') := Queue.pop_all q
  (nodeReverse chain [], q')

/-- `Receiver::recv` drains exactly like `recv_items` (the
`QueueMoveIter` yields the same elements in the same order, merely
deallocating as it goes). -/
def Queue.recv (q : List α) : List α × List α := Queue.recv_items q

/-! ## Module trait (`module.rs`)

`Box<Module>` is a trait object: some hidden state plus a vtable.  The
embedding makes the state a type parameter `M` and the vtable an
explicit record of pure functions.  `process_ts` receives the gathered
control inputs, the previous contents of the node's own `control_out`
and `buf_out` arrays (which it overwrites in place in Rust), the
gathered input buffers and the timestamp, and returns the new module
state together with the data written to `control_out` / `buf_out`. -/

structure ModuleOps (α M : Type) where
  process_ts : M → List α → List α → List (List α) → List (List α) →
    Nat → M × List α × List (List α)
  set_param : M → Nat → α → Nat → M
  handle_note : M → α → α → Bool → M
  migrate : M → M → M

/-- In Rust a module writes through `&mut` into a fixed-size array: the
array's length cannot change.  `writeSlice old new` models writing the
produced contents `new` into the array `old`: the result always has
`old.length` elements, taking them from `new` first. -/
def writeSlice (old new : List β) : List β :=
  (new ++ old.drop new.length).take old.length

/-! ## Graph (`graph.rs`) -/

/-- `MAX_CTRL`: size of the control-input scratch array in
`run_graph`. -/
def MAX_CTRL : Nat := 16

/-- `MAX_BUF`: size of the buffer-input scratch array in
`run_graph`. -/
def MAX_BUF : Nat := 16

/-- Visit state for the topological sort. -/
inductive VisitedState where
  | NotVisited
  | Pushed
  | Scanned
deriving DecidableEq, Repr

/-- `Node` (graph.rs): a module with its id, input wirings and owned
output arrays.  Wiring entries are `(source module ix, index within its
out_buf / out_ctrl slice)`. -/
structure GNode (α M : Type) where
  ix : Nat
  module : M
  in_buf_wiring : List (Nat × Nat)
  in_ctrl_wiring : List (Nat × Nat)
  out_bufs : List (List α)
  out_ctrl : List α
deriving DecidableEq, Repr

/-- `SetParam` (graph.rs). -/
structure SetParamMsg (α : Type) where
  ix : Nat
  param_ix : Nat
  val : α
  timestamp : Nat
deriving DecidableEq, Repr

/-- `Note` (graph.rs). -/
structure NoteMsg (α : Type) where
  ixs : List Nat
  midi_num : α
  velocity : α
  note_on : Bool
  timestamp : Nat
deriving DecidableEq, Repr

/-- `Message` (graph.rs). -/
inductive Message (α M : Type) where
  | node (n : GNode α M)
  | setParam (p : SetParamMsg α)
  | note (n : NoteMsg α)
  | quit
deriving DecidableEq, Repr

/-- `Message::get_node`. -/
def Message.get_node : Message α M → Option (GNode α M)
  | Message.node n => some n
  | _ => none

/-- `Graph`: slot array of optional items plus the persistent topo-sort
scratch.  (The `link` array of the source is represented by the `stack`
and `result` lists threaded through `topoLoop`.) -/
structure Graph (α M : Type) where
  nodes : List (Option (Message α M))
  visited : List VisitedState
deriving DecidableEq, Repr

/-- `Graph::new(max_size)`. -/
def Graph.new (α M : Type) (max_size : Nat) : Graph α M :=
  { nodes := List.replicate max_size none
    visited := List.replicate max_size VisitedState.NotVisited }

/-- `Graph::get_node`: `self.nodes[ix].as_ref().and_then(get_node)`.
An out-of-bounds `ix` panics in Rust at `self.nodes[ix]`; every caller
of `get_node` unwraps or propagates, so collapsing that panic into
`none` here loses nothing. -/
def Graph.get_node (g : Graph α M) (ix : Nat) : Option (GNode α M) :=
  (g.nodes.getD ix none).bind Message.get_node

/-- `Graph::replace`: swap slot `ix` for `item`, returning the old
contents; if the old contents held a `Node`, call the *new* module's
`migrate` hook with the outgoing module — via
`self.get_node_mut(ix).unwrap()`, which panics (`none`) when the item
just installed is not a `Some(Node)`. -/
def Graph.replace (ops : ModuleOps α M) (g : Graph α M) (ix : Nat)
    (item : Option (Message α M)) :
    Option (Graph α M × Option (Message α M)) :=
  if ix < g.nodes.length then
    let old_item := g.nodes.getD ix none
    let g' : Graph α M := { g with nodes := g.nodes.set ix item }
    match old_item with
    | some (Message.node old_node) =>
        match (g'.nodes.getD ix none).bind Message.get_node with
        | some new_node =>
            some ({ g' with nodes := g'.nodes.set ix (some (Message.node
              { new_node with
                  module := ops.migrate new_node.module old_node.module })) },
              old_item)
        | none => none
    | _ => some (g', old_item)
  else none

/-- First loop of `run_one_module`: gather the input buffers named by
`in_buf_wiring`.  For entry `i`: `assert!(module_ix != mod_ix)`, then
`bufs[i] = &self.get_out_bufs(mod_ix)[buf_ix]` — panics (`none`) on a
self-wire, a missing source node, an out-of-range buffer index, or
`i ≥ MAX_BUF`. -/
def gatherBufs (g : Graph α M) (module_ix : Nat) :
    List (Nat × Nat) → Nat → Option (List (List α))
  | [], _ => some []
  | (mod_ix, buf_ix) :: w, i =>
    if module_ix = mod_ix then none
    else if i < MAX_BUF then
      match (g.get_node mod_ix).bind (fun src => src.out_bufs.get? buf_ix) with
      | some b => (gatherBufs g module_ix w (i + 1)).map (b :: ·)
      | none => none
    else none

/-- Second loop of `run_one_module`: gather control inputs.  No
self-wire assertion here — the source contains none for
`in_ctrl_wiring`. -/
def gatherCtrl (g : Graph α M) :
    List (Nat × Nat) → Nat → Option (List α)
  | [], _ => some []
  | (mod_ix, ctrl_ix) :: w, i =>
    if i < MAX_CTRL then
      match (g.get_node mod_ix).bind (fun src => src.out_ctrl.get? ctrl_ix) with
      | some c => (gatherCtrl g w (i + 1)).map (c :: ·)
      | none => none
    else none

/-- `Graph::run_one_module`: gather the inputs of `module_ix`, then run
its module's `process_ts`, writing the results into the node's own
`out_ctrl` / `out_bufs` arrays. -/
def Graph.run_one_module (ops : ModuleOps α M) (g : Graph α M)
    (module_ix ts : Nat) : Option (Graph α M) := do
  let this ← g.get_node module_ix
  let buf_in ← gatherBufs g module_ix this.in_buf_wiring 0
  let ctrl_in ← gatherCtrl g this.in_ctrl_wiring 0
  let (m', ctrl_out, bufs_out) :=
    ops.process_ts this.module ctrl_in this.out_ctrl buf_in this.out_bufs ts
  some { g with nodes := g.nodes.set module_ix (some (Message.node
    { this with
        module := m'
        out_ctrl := writeSlice this.out_ctrl ctrl_out
        out_bufs := writeSlice this.out_bufs bufs_out })) }

/-- The `for` loop inside the `Pushed` branch of `topo_sort`: walk the
chained wirings; every `NotVisited` child is marked `Pushed` and pushed
onto the stack (so the last wiring entry ends nearest the top).  The
read `self.visited[ix]` panics (`none`) out of bounds. -/
def scanChildren : List (Nat × Nat) → List VisitedState → List Nat →
    Option (List VisitedState × List Nat)
  | [], v, s => some (v, s)
  | (ix, _) :: w, v, s =>
    match v.get? ix with
    | none => none
    | some st =>
        if st = VisitedState.NotVisited then
          scanChildren w (v.set ix VisitedState.Pushed) (ix :: s)
        else
          scanChildren w v s

/-- The `while stack != SENTINEL` loop of `topo_sort`.  One fuel unit
per iteration; within an iteration, first the `Pushed` branch (mark
`Scanned`, scan children), then the `Scanned` branch (append the top of
the stack to the result list and pop it).  Fuel exhaustion models
divergence — unreachable from the real entry states within the fuel
supplied by `topo_sort`. -/
def topoLoop (g : Graph α M) :
    Nat → List VisitedState → List Nat → List Nat →
    Option (List Nat × List VisitedState)
  | _, v, [], result => some (result, v)
  | 0, _, _ :: _, _ => none
  | fuel + 1, v, top :: rest, result =>
    match v.get? top with
    | none => none
    | some vtop =>
      let step :
          Option (List VisitedState × List Nat) :=
        if vtop = VisitedState.Pushed then
          let v1 := v.set top VisitedState.Scanned
          match (g.nodes.getD top none).bind Message.get_node with
          | none => none
          | some node =>
              scanChildren (node.in_buf_wiring ++ node.in_ctrl_wiring)
                v1 (top :: rest)
        else some (v, top :: rest)
      match step with
      | none => none
      | some (v2, stack2) =>
        match stack2 with
        | [] => some (result, v2)
        | top2 :: rest2 =>
          match v2.get? top2 with
          | none => none
          | some vtop2 =>
              if vtop2 = VisitedState.Scanned then
                topoLoop g fuel v2 rest2 (result ++ [top2])
              else
                topoLoop g fuel v2 (top2 :: rest2) result

/-- `Graph::topo_sort`: reset-free iterative DFS from `root`.  Entry:
`link[root] = SENTINEL; stack = root; visited[root] = Pushed` (the
write panics if `root` is out of range).  Returns the result order
(head of the linked list first — the order `run_graph` evaluates) and
the updated visit states.  `2·n + 1` fuel covers the loop's at most
`2·n` iterations. -/
def Graph.topo_sort (g : Graph α M) (root : Nat) :
    Option (List Nat × List VisitedState) :=
  if root < g.visited.length then
    topoLoop g (2 * g.visited.length + 1)
      (g.visited.set root VisitedState.Pushed) [root] []
  else none

/-- The evaluation loop of `run_graph`: walk the result list, run each
module, and reset its visit state to `NotVisited` for the next topo
sort. -/
def runOrder (ops : ModuleOps α M) :
    Graph α M → List Nat → Nat → Option (Graph α M)
  | g, [], _ => some g
  | g, ix :: rest, ts => do
    let g' ← g.run_one_module ops ix ts
    runOrder ops
      { g' with visited := g'.visited.set ix VisitedState.NotVisited }
      rest ts

/-- `Graph::run_graph(root, timestamp)`. -/
def Graph.run_graph (ops : ModuleOps α M) (g : Graph α M)
    (root ts : Nat) : Option (Graph α M) := do
  let (order, v') ← g.topo_sort root
  runOrder ops { g with visited := v' } order ts

/-! ## Worker (`worker.rs`)

The worker owns the graph and the outbound (`from_worker`) queue; the
inbound queue matters only as the list of items drained by `work`,
which `handle_item` consumes one at a time. -/

structure WorkerSt (α M : Type) where
  graph : Graph α M
  from_worker : List (Message α M)
deriving DecidableEq, Repr

/-- The loop in the `Note` arm of `handle_item`: for each listed ix,
`self.graph.get_module_mut(ix).unwrap()` (panics when no node is
installed there) and `handle_note`. -/
def applyNote (ops : ModuleOps α M) (nt : NoteMsg α) :
    Graph α M → List Nat → Option (Graph α M)
  | g, [] => some g
  | g, ix :: rest =>
    match g.get_node ix with
    | none => none
    | some nd =>
        applyNote ops nt
          { g with nodes := g.nodes.set ix (some (Message.node
            { nd with module := (ops.handle_note nd.module nt.midi_num
                nt.velocity nt.note_on) })) }
          rest

/-- `Worker::handle_item`.  `SetParam` and `Note` dispatch to the named
modules and forward the item itself to the outbound queue; `Node`
installs at its ix via `Graph::replace`, forwarding the displaced item
if there was one; `Quit` (`_ => return // NYI`) does nothing at all. -/
def Worker.handle_item (ops : ModuleOps α M) (w : WorkerSt α M)
    (item : Message α M) : Option (WorkerSt α M) :=
  match item with
  | Message.node n =>
      match Graph.replace ops w.graph n.ix (some (Message.node n)) with
      | none => none
      | some (g', old_item) =>
          match old_item with
          | some old =>
              some { graph := g',
                     from_worker := Queue.send_item w.from_worker old }
          | none => some { graph := g', from_worker := w.from_worker }
  | Message.setParam p =>
      match w.graph.get_node p.ix with
      | none => none
      | some nd =>
          let nd' : GNode α M :=
            { nd with module := (ops.set_param nd.module p.param_ix
                p.val p.timestamp) }
          let g' : Graph α M :=
            { w.graph with
              nodes := w.graph.nodes.set p.ix (some (Message.node nd')) }
          some { graph := g',
                 from_worker := Queue.send_item w.from_worker item }
  | Message.note nt =>
      match applyNote ops nt w.graph nt.ixs with
      | none => none
      | some g' =>
          some { graph := g',
                 from_worker := Queue.send_item w.from_worker item }
  | Message.quit => some w

/-- Draining a sequence of items, as the loop in `Worker::work` does. -/
def Worker.handle_items (ops : ModuleOps α M) :
    WorkerSt α M → List (Message α M) → Option (WorkerSt α M)
  | w, [] => some w
  | w, item :: rest => do
      let w' ← Worker.handle_item ops w item
      Worker.handle_items ops w' rest

/-! ## Sin (`modules/sin.rs`) — the `migrate` hook

Only `migrate` matters for the claims: it downcasts the outgoing module
and copies its phase when and only when the predecessor is itself a
`Sin`.  The runtime type of a boxed module is modelled by the inductive
`ModState`: a `Sin`'s state, or some other module's (opaque) state. -/

structure SinState (α : Type) where
  sr_offset : α
  phase : α
deriving DecidableEq, Repr

/-- A trait object's dynamic type, for the downcast in
`Sin::migrate`. -/
inductive ModState (α : Type) where
  | sin (s : SinState α)
  | other (tag : Nat)
deriving DecidableEq, Repr

/-- `Sin::migrate`: `old.to_any().downcast_ref::<Sin>()` succeeds
exactly on a `Sin`, in which case the incoming module copies the
outgoing phase; otherwise nothing happens. -/
def Sin.migrate (self : SinState α) (old : ModState α) : SinState α :=
  match old with
  | ModState.sin old_sin => { self with phase := old_sin.phase }
  | _ => self

/-- The vtable for the `ModState` universe: `Sin` overrides `migrate`,
every other module keeps the trait's default no-op; the remaining
methods are irrelevant to the migrate claims and keep their state. -/
def sinOps (α : Type) : ModuleOps α (ModState α) where
  process_ts := fun m _ co _ bo _ => (m, co, bo)
  set_param := fun m _ _ _ => m
  handle_note := fun m _ _ _ => m
  migrate := fun new old =>
    match new with
    | ModState.sin s => ModState.sin (Sin.migrate s old)
    | ModState.other t => ModState.other t

/-! ## Adsr (`modules/adsr.rs`)

Stated over an arbitrary linear ordered field `K`, with the `f32`
intrinsics `exp2` / `log2` abstracted as function parameters: every
claim proved below holds for every realization of them (in particular
the real-valued one). -/

inductive AdsrPhase where
  | Quiet
  | Attack
  | Decay
  | Sustain
  | Release
deriving DecidableEq, Repr

/-- The `Adsr` struct: `value` and `state` (the source names the enum
`State`; it is `AdsrPhase` here). -/
structure Adsr (K : Type) where
  value : K
  state : AdsrPhase
deriving DecidableEq, Repr

/-- `Adsr::new()`. -/
def Adsr.new (K : Type) [Neg K] [OfNat K 24] : Adsr K :=
  { value := -24, state := AdsrPhase.Quiet }

/-- `Adsr::handle_note`: note-on enters Attack, note-off Release. -/
def Adsr.handle_note (a : Adsr K) (_midi_num _velocity : K)
    (note_on : Bool) : Adsr K :=
  if note_on then { a with state := AdsrPhase.Attack }
  else { a with state := AdsrPhase.Release }

/-- `Adsr::set_param`: the module does not override the trait default,
which is a no-op. -/
def Adsr.set_param (a : Adsr K) (_param_ix : Nat) (_val : K)
    (_timestamp : Nat) : Adsr K := a

/-- `Adsr::process`.  `control_in` is the gathered control-input slice
(indices 0..3: log₂ attack/decay/release rates and the sustain level);
the returned `K` is what the module writes to `control_out[0]`, namely
the updated `value`. -/
def Adsr.process [LinearOrderedField K] (exp2 log2 : K → K)
    (a : Adsr K) (control_in : Nat → K) : Adsr K × K :=
  let a' : Adsr K :=
    match a.state with
    | AdsrPhase.Quiet => a
    | AdsrPhase.Attack =>
        let l := exp2 a.value + exp2 (-(control_in 0))
        if 1 ≤ l then { value := log2 1, state := AdsrPhase.Decay }
        else { value := log2 l, state := AdsrPhase.Attack }
    | AdsrPhase.Decay =>
        let sustain := control_in 2 - 6
        let v := a.value - exp2 (-(control_in 1))
        if v < sustain then { value := sustain, state := AdsrPhase.Sustain }
        else { value := v, state := AdsrPhase.Decay }
    | AdsrPhase.Sustain =>
        { value := control_in 2 - 6, state := AdsrPhase.Sustain }
    | AdsrPhase.Release =>
        let v := a.value - exp2 (-(control_in 3))
        if v < -24 then { value := -24, state := AdsrPhase.Quiet }
        else { value := v, state := AdsrPhase.Release }
  (a', a'.value)

/-- The invariant of claim C10: whenever the ADSR is `Quiet`, its value
is exactly `-24` (the log₂-amplitude floor). -/
def AdsrInv [Neg K] [OfNat K 24] (a : Adsr K) : Prop :=
  a.state = AdsrPhase.Quiet → a.value = -24

/-! ## Biquad (`modules/biquad.rs`)

The state-variable low-pass in matrix form, over exact real
arithmetic. -/

/-- `StateParams` (biquad.rs): the 2×2 recurrence matrix `a` in
column-major order (`a0 a1` is the first column, as in the source array
`a: [f32; 4]`), input vector `b`, readout vector `c`, feedthrough
`d`. -/
structure StateParams where
  a0 : ℝ
  a1 : ℝ
  a2 : ℝ
  a3 : ℝ
  b0 : ℝ
  b1 : ℝ
  c0 : ℝ
  c1 : ℝ
  d : ℝ

/-- `calc_g`: `tan(exp2 log_f)` — π/sr is already folded into the
caller's offset. -/
noncomputable def calc_g (log_f : ℝ) : ℝ :=
  Real.tan ((2 : ℝ) ^ log_f)

/-- `svf_lp(log_f, res)`: parameters of the low-pass state variable
filter.  The locals `k, q1, q2, q3` are the source's `k, a1, a2, a3`
(renamed to avoid the matrix fields). -/
noncomputable def svf_lp (log_f res : ℝ) : StateParams :=
  let g := calc_g log_f
  let k := 2 - 2 * res
  let q1 := 2 / (1 + g * (g + k))
  let q2 := g * q1
  let q3 := g * q2
  { a0 := q1 - 1, a1 := q2, a2 := -q2, a3 := 1 - q3
    b0 := q2, b1 := q3
    c0 := 0.5 * q2, c1 := 1 - 0.5 * q3
    d := 0.5 * q3 }

/-- The Rust `[f32; 16]` array `Biquad::matrix`, one field per cell:
`mi` is `m[i]` of the source. -/
structure Mat16 where
  m0 : ℝ
  m1 : ℝ
  m2 : ℝ
  m3 : ℝ
  m4 : ℝ
  m5 : ℝ
  m6 : ℝ
  m7 : ℝ
  m8 : ℝ
  m9 : ℝ
  m10 : ℝ
  m11 : ℝ
  m12 : ℝ
  m13 : ℝ
  m14 : ℝ
  m15 : ℝ

/-- `raise_matrix`: the 16 array entries, in the order of the source
literal. -/
def raise_matrix (p : StateParams) : Mat16 :=
  { m0 := p.d, m1 := p.c0 * p.b0 + p.c1 * p.b1
    m2 := p.a0 * p.b0 + p.a2 * p.b1, m3 := p.a1 * p.b0 + p.a3 * p.b1

    m4 := 0, m5 := p.d, m6 := p.b0, m7 := p.b1

    m8 := p.c0, m9 := p.c0 * p.a0 + p.c1 * p.a1
    m10 := p.a0 * p.a0 + p.a2 * p.a1, m11 := p.a1 * p.a0 + p.a3 * p.a1

    m12 := p.c1, m13 := p.c0 * p.a2 + p.c1 * p.a3
    m14 := p.a0 * p.a2 + p.a2 * p.a3, m15 := p.a1 * p.a2 + p.a3 * p.a3 }

/-- One pass of the inner loop of `Biquad::process`: consume the input
pair `(x0, x1)`, producing the output pair `(y0, y1)` and the next
state `(y2, y3)`, by one 4×4 matrix-vector multiplication
(`m[0]*x0 + m[4]*x1 + m[8]*state0 + m[12]*state1`, …). -/
def biquad_pair_step (m : Mat16) (x0 x1 s0 s1 : ℝ) :
    ℝ × ℝ × ℝ × ℝ :=
  (m.m0 * x0 + m.m4 * x1 + m.m8 * s0 + m.m12 * s1,
   m.m1 * x0 + m.m5 * x1 + m.m9 * s0 + m.m13 * s1,
   m.m2 * x0 + m.m6 * x1 + m.m10 * s0 + m.m14 * s1,
   m.m3 * x0 + m.m7 * x1 + m.m11 * s0 + m.m15 * s1)

/-- Modelled from the spec: the single-sample state-variable recurrence
defined by `(a, b, c, d)` — `y = c·s + d·x`, `s' = A·s + b·x` (with `A`
column-major, as stored).  This is the specification-side definition a
refinement claim compares `raise_matrix` against. -/
def svf_single_step (p : StateParams) (x s0 s1 : ℝ) : ℝ × ℝ × ℝ :=
  (p.c0 * s0 + p.c1 * s1 + p.d * x,
   p.a0 * s0 + p.a2 * s1 + p.b0 * x,
   p.a1 * s0 + p.a3 * s1 + p.b1 * x)

/-! ## Predicates used by the claim statements -/

/-- The node installed at slot `ix` (what `get_node` inspects), as a
function of the slot array alone. -/
def nodeAt (nodes : List (Option (Message α M))) (ix : Nat) :
    Option (GNode α M) :=
  (nodes.getD ix none).bind Message.get_node

/-- `i` wires from `j`: the node installed at `i` lists `j` as the
source of one of its buffer or control inputs. -/
def Graph.wires (g : Graph α M) (i j : Nat) : Prop :=
  ∃ nd, g.get_node i = some nd ∧
    ∃ q, (j, q) ∈ nd.in_buf_wiring ++ nd.in_ctrl_wiring

/-- The installed wiring is acyclic: some rank function strictly
decreases along every wire (a sufficient and, for these finite graphs,
equivalent rendering of "the wiring graph is a DAG"). -/
def AcyclicWiring (g : Graph α M) : Prop :=
  ∃ rank : Nat → Nat, ∀ i j, g.wires i j → rank j < rank i

/-- Every referenced source id has an installed node. -/
def SourcesInstalled (g : Graph α M) : Prop :=
  ∀ i j, g.wires i j → (g.get_node j).isSome = true

/-- What `Graph::replace` leaves in the slot when it does not panic:
the incoming item, its module passed through `migrate` (with the
outgoing module) exactly when both the old slot contents and the new
item hold a `Node`. -/
def replaceResult (ops : ModuleOps α M) (old item : Option (Message α M)) :
    Option (Message α M) :=
  match old, item with
  | some (Message.node old_node), some (Message.node new_node) =>
      some (Message.node { new_node with
        module := ops.migrate new_node.module old_node.module })
  | _, _ => item

/-- Validity of the node evaluated at `ix` (the control thread's
contract, minus the buffer self-wire condition): a node is installed,
its wirings fit the scratch arrays, every control source and every
non-self buffer source is installed with the referenced output index in
range. -/
def ValidAt (nodes : List (Option (Message α M))) (ix : Nat) : Prop :=
  ∃ nd, nodeAt nodes ix = some nd ∧
    nd.in_buf_wiring.length ≤ MAX_BUF ∧
    nd.in_ctrl_wiring.length ≤ MAX_CTRL ∧
    (∀ e ∈ nd.in_buf_wiring, e.1 ≠ ix →
      ∃ src, nodeAt nodes e.1 = some src ∧ e.2 < src.out_bufs.length) ∧
    (∀ e ∈ nd.in_ctrl_wiring,
      ∃ src, nodeAt nodes e.1 = some src ∧ e.2 < src.out_ctrl.length)

/-- No buffer input of the node at `ix` names `ix` itself as source
(the condition `assert!(module_ix != mod_ix)` checks). -/
def BufSelfWireFree (nodes : List (Option (Message α M))) (ix : Nat) :
    Prop :=
  ∀ nd, nodeAt nodes ix = some nd → ∀ e ∈ nd.in_buf_wiring, e.1 ≠ ix

/-! ## Concrete instances for counterexamples and witnesses -/

/-- A trivial module universe for concrete evaluation: unit state;
`process` leaves the output arrays as they were. -/
def trivOps : ModuleOps Int Unit where
  process_ts := fun m _ co _ bo _ => (m, co, bo)
  set_param := fun m _ _ _ => m
  handle_note := fun m _ _ _ => m
  migrate := fun new _ => new

/-- `Node::create` for the trivial universe, with `nb` output buffers
(of one sample each — the chunk length is irrelevant to the claims) and
`nc` control outputs. -/
def mkNode (ix : Nat) (bufW ctrlW : List (Nat × Nat)) (nb nc : Nat) :
    GNode Int Unit :=
  { ix := ix
    module := ()
    in_buf_wiring := bufW
    in_ctrl_wiring := ctrlW
    out_bufs := List.replicate nb [0]
    out_ctrl := List.replicate nc 0 }

/-- The diamond that defeats `topo_sort`: root 0 reads buffers from 1
then 2, and 2 reads a buffer from 1.  Acyclic, fully installed. -/
def exC2 : Graph Int Unit :=
  { nodes := [some (Message.node (mkNode 0 [(1, 0), (2, 0)] [] 1 0)),
              some (Message.node (mkNode 1 [] [] 1 0)),
              some (Message.node (mkNode 2 [(1, 0)] [] 1 0))]
    visited := List.replicate 3 VisitedState.NotVisited }

/-- One node whose single control input is wired to itself. -/
def exC8 : Graph Int Unit :=
  { nodes := [some (Message.node (mkNode 0 [] [(0, 0)] 1 1))]
    visited := [VisitedState.NotVisited] }

/-- One occupied slot, for the `replace`-with-`None` panic. -/
def exC3 : Graph Int Unit :=
  { nodes := [some (Message.node (mkNode 0 [] [] 0 0))]
    visited := [VisitedState.NotVisited] }

/-- A plain one-node graph with no wiring, used by witnesses. -/
def exW : Graph Int Unit :=
  { nodes := [some (Message.node (mkNode 0 [] [] 1 1))]
    visited := [VisitedState.NotVisited] }

/-- Two slots: a node at 0, slot 1 free; used by the worker witness. -/
def exW2 : Graph Int Unit :=
  { nodes := [some (Message.node (mkNode 0 [] [] 1 1)), none]
    visited := List.replicate 2 VisitedState.NotVisited }

/-- An installed `Sin` node (old module, phase 7). -/
def exSinOld : GNode Int (ModState Int) :=
  { ix := 0
    module := ModState.sin { sr_offset := 5, phase := 7 }
    in_buf_wiring := []
    in_ctrl_wiring := []
    out_bufs := [[0]]
    out_ctrl := [] }

/-- A replacement `Sin` node (new module, fresh phase 0). -/
def exSinNew : GNode Int (ModState Int) :=
  { ix := 0
    module := ModState.sin { sr_offset := 3, phase := 0 }
    in_buf_wiring := []
    in_ctrl_wiring := []
    out_bufs := [[0]]
    out_ctrl := [] }

/-- A graph holding `exSinOld` at slot 0. -/
def exSinGraph : Graph Int (ModState Int) :=
  { nodes := [some (Message.node exSinOld)]
    visited := [VisitedState.NotVisited] }

end SynthIO

namespace SynthIO

/-! ## Theorems -/

theorem nodeReverse_eq_reverse_append (p q : List α) :
    nodeReverse p q = p.reverse ++ q := by
  induction p generalizing q with
  | nil => simp [nodeReverse]
  | cons x p ih => simp [nodeReverse, ih]

theorem Queue.sendAll_eq (q xs : List α) :
    Queue.sendAll q xs = xs.reverse ++ q := by
  induction xs generalizing q with
  | nil => simp [Queue.sendAll]
  | cons x xs ih =>
      simp only [Queue.sendAll, List.foldl_cons] at *
      rw [ih]
      simp [Queue.send, Queue.send_item, Queue.push_raw]

/-- C1: per-producer FIFO.  (i) Draining after a producer sends
`x₁, …, xₙ` into a queue with pending contents `q` yields the pending
items (themselves in send order) followed by `x₁, …, xₙ` in exactly the
order sent — within any single drain an item sent later is never
yielded before one sent earlier.  (ii) From an empty queue the drain is
exactly the sent sequence, the queue is left empty, and a subsequent
batch sent afterwards is yielded entirely in the subsequent drain, in
order; `recv` drains identically to `recv_items`. -/
theorem queue_fifo_per_producer (q xs ys : List α) :
    (Queue.recv_items (Queue.sendAll q xs)).1
        = (Queue.recv_items q).1 ++ xs ∧
    Queue.recv_items (Queue.sendAll Queue.new xs) = (xs, Queue.new) ∧
    (Queue.recv_items
        (Queue.sendAll (Queue.recv_items (Queue.sendAll Queue.new xs)).2
          ys)).1 = ys ∧
    Queue.recv (Queue.sendAll Queue.new xs) =
      Queue.recv_items (Queue.sendAll Queue.new xs) := by
  refine ⟨?_, ?_, ?_, rfl⟩
  · simp [Queue.recv_items, Queue.pop_all, Queue.sendAll_eq,
      nodeReverse_eq_reverse_append]
  · simp [Queue.recv_items, Queue.pop_all, Queue.sendAll_eq, Queue.new,
      nodeReverse_eq_reverse_append]
  · simp [Queue.recv_items, Queue.pop_all, Queue.sendAll_eq, Queue.new,
      nodeReverse_eq_reverse_append]

/-! ### Shared list helpers -/

theorem getD_set_self' {γ : Type} (l : List γ) (i : Nat) (a d : γ)
    (h : i < l.length) : (l.set i a).getD i d = a := by
  rw [List.getD_eq_getElem?_getD, List.getElem?_set_self h]
  rfl

theorem getD_set_ne' {γ : Type} (l : List γ) {i j : Nat} (a d : γ)
    (h : i ≠ j) : (l.set i a).getD j d = l.getD j d := by
  rw [List.getD_eq_getElem?_getD, List.getElem?_set_ne h,
    ← List.getD_eq_getElem?_getD]

/-! ### Shared graph lemmas -/

theorem lt_length_of_get_node_some {γ M : Type} (g : Graph γ M)
    (i : Nat) (nd : GNode γ M) (h : g.get_node i = some nd) :
    i < g.nodes.length := by
  by_contra hlt
  push_neg at hlt
  rw [Graph.get_node, List.getD_eq_default _ _ hlt] at h
  simp at h

/-- Looking up a node after installing a node message at slot `ix`. -/
theorem get_node_set_node {γ M : Type} (g : Graph γ M) (ix : Nat)
    (nd : GNode γ M) (j : Nat) :
    Graph.get_node
        { g with nodes := g.nodes.set ix (some (Message.node nd)) } j =
      if j = ix ∧ ix < g.nodes.length then some nd else g.get_node j := by
  by_cases hj : j = ix
  · subst hj
    by_cases hlen : j < g.nodes.length
    · rw [Graph.get_node, getD_set_self' _ _ _ _ hlen]
      simp [hlen, Message.get_node]
    · rw [Graph.get_node, List.set_eq_of_length_le (by omega)]
      simp [hlen, Graph.get_node, List.getD_eq_getElem?_getD]
  · rw [Graph.get_node, getD_set_ne' _ _ _ (fun hh => hj hh.symm)]
    simp [hj, Graph.get_node, List.getD_eq_getElem?_getD]

/-- The success behaviour of `Graph::replace`: when the incoming item
holds a `Node`, or the outgoing slot did not, the slot is exchanged for
`replaceResult` and the old contents returned. -/
theorem replace_ok {γ M : Type} (ops : ModuleOps γ M) (g : Graph γ M)
    (ix : Nat) (item : Option (Message γ M)) (h : ix < g.nodes.length)
    (hok : (∃ n, item = some (Message.node n)) ∨
      ∀ n, g.nodes.getD ix none ≠ some (Message.node n)) :
    Graph.replace ops g ix item =
      some ({ g with nodes := (g.nodes.set ix
            (replaceResult ops (g.nodes.getD ix none) item)) },
        g.nodes.getD ix none) := by
  have hgetD : g.nodes.getD ix none = g.nodes[ix] :=
    List.getD_eq_getElem _ _ h
  cases hold : g.nodes[ix] with
  | none => simp [Graph.replace, h, hgetD, hold, replaceResult]
  | some msg =>
      cases msg with
      | node old_node =>
          rcases hok with ⟨n, rfl⟩ | hno
          · simp [Graph.replace, h, hgetD, hold, replaceResult,
              Message.get_node, List.set_set]
          · rw [hgetD] at hno
            exact absurd hold (hno old_node)
      | setParam p => simp [Graph.replace, h, hgetD, hold, replaceResult]
      | note n => simp [Graph.replace, h, hgetD, hold, replaceResult]
      | quit => simp [Graph.replace, h, hgetD, hold, replaceResult]

/-- The panic behaviour of `Graph::replace`: a `Node` displaced by a
non-`Node` item makes `get_node_mut(ix).unwrap()` panic. -/
theorem replace_panics {γ M : Type} (ops : ModuleOps γ M)
    (g : Graph γ M) (ix : Nat) (item : Option (Message γ M))
    (h : ix < g.nodes.length) (old_node : GNode γ M)
    (hold : g.nodes.getD ix none = some (Message.node old_node))
    (hni : ∀ n, item ≠ some (Message.node n)) :
    Graph.replace ops g ix item = none := by
  have hgetD : g.nodes.getD ix none = g.nodes[ix] :=
    List.getD_eq_getElem _ _ h
  rw [hgetD] at hold
  cases item with
  | none => simp [Graph.replace, h, hold, Message.get_node]
  | some m =>
      cases m with
      | node n => exact absurd rfl (hni n)
      | setParam p => simp [Graph.replace, h, hold, Message.get_node]
      | note n => simp [Graph.replace, h, hold, Message.get_node]
      | quit => simp [Graph.replace, h, hold, Message.get_node]

/-! ### C2 — topological soundness -/

theorem exC2_wires_cases (i j : Nat) (h : exC2.wires i j) :
    (i = 0 ∧ j = 1) ∨ (i = 0 ∧ j = 2) ∨ (i = 2 ∧ j = 1) := by
  obtain ⟨nd, hnd, q, hq⟩ := h
  match i with
  | 0 =>
      have h0 : exC2.get_node 0 = some (mkNode 0 [(1, 0), (2, 0)] [] 1 0) :=
        rfl
      rw [h0] at hnd
      cases Option.some.inj hnd
      simp only [mkNode, List.append_nil, List.mem_cons,
        List.not_mem_nil, or_false, Prod.mk.injEq] at hq
      rcases hq with ⟨hj, _⟩ | ⟨hj, _⟩
      · exact Or.inl ⟨rfl, hj⟩
      · exact Or.inr (Or.inl ⟨rfl, hj⟩)
  | 1 =>
      have h0 : exC2.get_node 1 = some (mkNode 1 [] [] 1 0) := rfl
      rw [h0] at hnd
      cases Option.some.inj hnd
      simp [mkNode] at hq
  | 2 =>
      have h0 : exC2.get_node 2 = some (mkNode 2 [(1, 0)] [] 1 0) := rfl
      rw [h0] at hnd
      cases Option.some.inj hnd
      simp only [mkNode, List.append_nil, List.mem_cons,
        List.not_mem_nil, or_false, Prod.mk.injEq] at hq
      exact Or.inr (Or.inr ⟨rfl, hq.1⟩)
  | n + 3 =>
      have hlen : exC2.nodes.length ≤ n + 3 := by
        simp [exC2]
      rw [Graph.get_node, List.getD_eq_default _ _ hlen] at hnd
      simp [Message.get_node] at hnd

/-- C2: refuted by execution — the graph `exC2` (root 0 reading buffers
from 1 then 2, node 2 reading a buffer from 1) is acyclic with all
sources installed, yet `topo_sort 0` produces the evaluation order
`[2, 1, 0]`: node 2 is evaluated *before* its source node 1, and
`run_graph` happily evaluates it against node 1's stale buffer.  This
contradicts the claimed topological-soundness guarantee; the code, not
the claim, is at fault (the iterative DFS marks all children `Pushed`
at once, so node 2's edge to the still-pending sibling 1 is
skipped). -/
theorem topo_sort_misorders_diamond :
    AcyclicWiring exC2 ∧ SourcesInstalled exC2 ∧ exC2.wires 2 1 ∧
    exC2.topo_sort 0 =
      some ([2, 1, 0], List.replicate 3 VisitedState.Scanned) ∧
    (exC2.run_graph trivOps 0 0).isSome = true := by
  refine ⟨⟨fun i => if i = 0 then 2 else if i = 2 then 1 else 0, ?_⟩,
    ?_, ?_, by decide, by decide⟩
  · intro i j h
    rcases exC2_wires_cases i j h with ⟨hi, hj⟩ | ⟨hi, hj⟩ | ⟨hi, hj⟩ <;>
      subst hi <;> subst hj <;> simp
  · intro i j h
    rcases exC2_wires_cases i j h with ⟨hi, hj⟩ | ⟨hi, hj⟩ | ⟨hi, hj⟩ <;>
      subst hi <;> subst hj <;> decide
  · exact ⟨mkNode 2 [(1, 0)] [] 1 0, rfl, 0, by simp [mkNode]⟩

/-! ### C3 — `Graph::replace` -/

/-- C3, counterexample: slot 0 of `exC3` holds a `Node`, and replacing
it with `None` panics (`unwrap` of `get_node_mut` on the freshly
emptied slot) instead of returning the old contents. -/
theorem replace_none_over_node_panics :
    (exC3.get_node 0).isSome = true ∧
    Graph.replace trivOps exC3 0 none = none := by
  decide

/-- C3 (amended): for a valid index, *provided* the new item holds a
`Node` or the previous slot did not, `replace` installs the item —
its module passed through `migrate` exactly when both the old contents
and the new item hold a `Node` (that is what `replaceResult` says) —
and returns the previous contents.  When the previous slot holds a
`Node` and the new item does not, `replace` panics. -/
theorem replace_amended (ops : ModuleOps γ M) (g : Graph γ M) (ix : Nat)
    (item : Option (Message γ M)) (h : ix < g.nodes.length) :
    (((∃ n, item = some (Message.node n)) ∨
        ∀ n, g.nodes.getD ix none ≠ some (Message.node n)) →
      Graph.replace ops g ix item =
        some ({ g with nodes := (g.nodes.set ix
              (replaceResult ops (g.nodes.getD ix none) item)) },
          g.nodes.getD ix none)) ∧
    (∀ old_node, g.nodes.getD ix none = some (Message.node old_node) →
      (∀ n, item ≠ some (Message.node n)) →
      Graph.replace ops g ix item = none) :=
  ⟨fun hok => replace_ok ops g ix item h hok,
   fun old_node hold hni =>
     replace_panics ops g ix item h old_node hold hni⟩

theorem replace_amended_witness :
    0 < exW.nodes.length ∧
    Graph.replace trivOps exW 0 (some (Message.node (mkNode 0 [] [] 1 1))) =
      some ({ exW with nodes := (exW.nodes.set 0
            (replaceResult trivOps (exW.nodes.getD 0 none)
              (some (Message.node (mkNode 0 [] [] 1 1))))) },
        exW.nodes.getD 0 none) :=
  ⟨by decide,
    (replace_amended trivOps exW 0
        (some (Message.node (mkNode 0 [] [] 1 1))) (by decide)).1
      (Or.inl ⟨mkNode 0 [] [] 1 1, rfl⟩)⟩

/-! ### C7 — `Sin::migrate` -/

/-- C7: when the outgoing module is itself a `Sin`, the incoming `Sin`
takes over exactly its phase (nothing else changes); when it is not, the
incoming state is left entirely unchanged; and through `Graph::replace`,
installing a new `Sin` over an old `Sin` at the same id leaves the slot
holding the new node with the old node's phase. -/
theorem sin_migrate_phase {β : Type} (self o : SinState β)
    (m : ModState β) (g : Graph β (ModState β)) (ix : Nat)
    (newN oldN : GNode β (ModState β))
    (h1 : ix < g.nodes.length)
    (h2 : g.nodes.getD ix none = some (Message.node oldN))
    (h3 : oldN.module = ModState.sin o)
    (h4 : newN.module = ModState.sin self) :
    Sin.migrate self (ModState.sin o) = { self with phase := o.phase } ∧
    ((∀ o2, m ≠ ModState.sin o2) → Sin.migrate self m = self) ∧
    ∃ g', Graph.replace (sinOps β) g ix (some (Message.node newN)) =
        some (g', some (Message.node oldN)) ∧
      g'.get_node ix = some { newN with
        module := ModState.sin { self with phase := o.phase } } := by
  refine ⟨rfl, ?_, ?_⟩
  · intro hm
    cases m with
    | sin s => exact absurd rfl (hm s)
    | other t => rfl
  · refine ⟨{ g with nodes := g.nodes.set ix (some (Message.node
      { newN with module := ModState.sin { self with phase := o.phase } })) },
      ?_, ?_⟩
    · simp only [Graph.replace, h1, if_true, h2]
      rw [getD_set_self' _ _ _ _ h1]
      simp only [Message.get_node, Option.some_bind, List.set_set]
      rw [h4, h3]
      rfl
    · rw [Graph.get_node, getD_set_self' _ _ _ _ h1]
      rfl

theorem sin_migrate_phase_witness :
    exSinGraph.nodes.getD 0 none = some (Message.node exSinOld) ∧
    (Sin.migrate ({ sr_offset := 3, phase := 0 } : SinState Int)
        (ModState.sin { sr_offset := 5, phase := 7 }) =
      ({ sr_offset := 3, phase := 7 } : SinState Int)) ∧
    ((∀ o2, (ModState.other 0 : ModState Int) ≠ ModState.sin o2) →
      Sin.migrate ({ sr_offset := 3, phase := 0 } : SinState Int)
          (ModState.other 0 : ModState Int) =
        { sr_offset := 3, phase := 0 }) ∧
    ∃ g', Graph.replace (sinOps Int) exSinGraph 0
        (some (Message.node exSinNew)) =
        some (g', some (Message.node exSinOld)) ∧
      g'.get_node 0 = some { exSinNew with
        module := ModState.sin { sr_offset := 3, phase := 7 } } :=
  ⟨rfl, sin_migrate_phase ({ sr_offset := 3, phase := 0 } : SinState Int)
    { sr_offset := 5, phase := 7 } (ModState.other 0) exSinGraph 0
    exSinNew exSinOld (by decide) rfl rfl rfl⟩

/-! ### C8 — self-wire assertion, counterexample -/

/-- C8, counterexample: the single node of `exC8` is evaluated by
`run_graph` and wires its control input to itself, yet nothing panics:
the `assert!(module_ix != mod_ix)` guards only the *buffer* gathering
loop, and the control loop reads the node's own previous `out_ctrl`
without any check. -/
theorem ctrl_self_wire_not_asserted :
    exC8.topo_sort 0 = some ([0], [VisitedState.Scanned]) ∧
    (∃ nd, exC8.get_node 0 = some nd ∧ (0, 0) ∈ nd.in_ctrl_wiring) ∧
    (exC8.run_graph trivOps 0 0).isSome = true := by
  refine ⟨by decide, ⟨mkNode 0 [] [(0, 0)] 1 1, rfl, by simp [mkNode]⟩,
    by decide⟩

/-! ### C4 — worker dispatch and displaced items -/

theorem applyNote_isSome {γ M : Type} (ops : ModuleOps γ M)
    (nt : NoteMsg γ) :
    ∀ (ixs : List Nat) (g : Graph γ M),
      (∀ i ∈ ixs, (g.get_node i).isSome = true) →
      ∃ g', applyNote ops nt g ixs = some g' := by
  intro ixs
  induction ixs with
  | nil => exact fun g _ => ⟨g, rfl⟩
  | cons i rest ih =>
      intro g hall
      obtain ⟨nd, hnd⟩ :=
        Option.isSome_iff_exists.mp (hall i (by simp))
      have hstep :
          applyNote ops nt g (i :: rest) =
            applyNote ops nt
              { g with nodes := g.nodes.set i (some (Message.node
                { nd with module := (ops.handle_note nd.module nt.midi_num
                    nt.velocity nt.note_on) })) } rest := by
        simp [applyNote, hnd]
      rw [hstep]
      apply ih
      intro j hj
      rw [get_node_set_node]
      by_cases hji : j = i
      · simp [hji, lt_length_of_get_node_some g i nd hnd]
      · simpa [hji] using hall j (List.mem_cons_of_mem _ hj)

theorem getLastD_module_override {γ M : Type}
    (rest : List (GNode γ M)) (n : GNode γ M) (x m : M) :
    ({ rest.getLastD { n with module := x } with module := m }
        : GNode γ M) =
      { rest.getLastD n with module := m } := by
  cases rest with
  | nil => rfl
  | cons r rs => simp [List.getLastD]

/-- Repeated `Node` installs over an *occupied* slot: each one
displaces the previous occupant onto the outbound queue, and the slot
ends up holding the last node of the batch (its module whatever the
migrate chain produced). -/
theorem handle_nodes_occupied {γ M : Type} (ops : ModuleOps γ M)
    (k : Nat) :
    ∀ (ns : List (GNode γ M)) (w : WorkerSt γ M) (cur : GNode γ M),
      k < w.graph.nodes.length →
      w.graph.nodes.getD k none = some (Message.node cur) →
      (∀ x ∈ ns, x.ix = k) →
      ∃ w' m,
        Worker.handle_items ops w (ns.map Message.node) = some w' ∧
        w'.from_worker.length = w.from_worker.length + ns.length ∧
        w'.graph.nodes.getD k none =
          some (Message.node { ns.getLastD cur with module := m }) ∧
        w'.graph.nodes.length = w.graph.nodes.length := by
  intro ns
  induction ns with
  | nil =>
      intro w cur hk hcur _
      exact ⟨w, cur.module, rfl, by simp [Worker.handle_items], hcur, rfl⟩
  | cons n rest ih =>
      intro w cur hk hcur hall
      have hnix : n.ix = k := hall n (by simp)
      have hrep := replace_ok ops w.graph n.ix (some (Message.node n))
        (by rw [hnix]; exact hk) (Or.inl ⟨n, rfl⟩)
      rw [hnix, hcur] at hrep
      have hres : replaceResult ops (some (Message.node cur))
          (some (Message.node n)) =
        some (Message.node { n with
          module := ops.migrate n.module cur.module }) := rfl
      rw [hres] at hrep
      have hw1 : Worker.handle_item ops w (Message.node n) =
          some { graph := { w.graph with nodes :=
                  (w.graph.nodes.set k (some (Message.node { n with
                    module := ops.migrate n.module cur.module }))) },
                 from_worker :=
                  Queue.send_item w.from_worker (Message.node cur) } := by
        rw [Worker.handle_item, hnix, hrep, hnix]
      obtain ⟨w', m, hrun, hlen, hslot, hlen2⟩ :=
        ih { graph := { w.graph with nodes :=
                (w.graph.nodes.set k (some (Message.node { n with
                  module := ops.migrate n.module cur.module }))) },
             from_worker :=
              Queue.send_item w.from_worker (Message.node cur) }
          { n with module := ops.migrate n.module cur.module }
          (by simpa using hk)
          (by exact getD_set_self' _ _ _ _ hk)
          (fun x hx => hall x (List.mem_cons_of_mem _ hx))
      refine ⟨w', m, ?_, ?_, ?_, ?_⟩
      · simpa [Worker.handle_items, hw1] using hrun
      · rw [hlen]
        simp [Queue.send_item, Queue.push_raw]
        omega
      · rw [hslot, List.getLastD_cons,
          getLastD_module_override rest n _ m]
      · simpa using hlen2

/-- C4: `SetParam` and `Note` items are dispatched to the named
modules and then themselves forwarded to the outbound queue; a `Node`
item is installed at its id with the displaced item forwarded exactly
when the slot was occupied; consequently a batch of `n` replacement
nodes aimed at one initially-empty slot forwards exactly `n - 1`
displaced items and leaves the last node installed. -/
theorem worker_dispatch {γ M : Type} (ops : ModuleOps γ M)
    (w : WorkerSt γ M) (p : SetParamMsg γ) (nt : NoteMsg γ)
    (n : GNode γ M) (ns : List (GNode γ M)) (k : Nat) (nd : GNode γ M)
    (hp : w.graph.get_node p.ix = some nd)
    (hnt : ∀ i ∈ nt.ixs, (w.graph.get_node i).isSome = true)
    (hn1 : n.ix < w.graph.nodes.length)
    (hn2 : w.graph.nodes.getD n.ix none = none ∨
      ∃ c, w.graph.nodes.getD n.ix none = some (Message.node c))
    (hk : k < w.graph.nodes.length)
    (hke : w.graph.nodes.getD k none = none)
    (hns : ns ≠ [])
    (hika : ∀ x ∈ ns, x.ix = k) :
    (Worker.handle_item ops w (Message.setParam p) =
      some { graph := { w.graph with nodes :=
              (w.graph.nodes.set p.ix (some (Message.node { nd with
                module := (ops.set_param nd.module p.param_ix p.val
                  p.timestamp) }))) },
             from_worker :=
              Queue.send_item w.from_worker (Message.setParam p) }) ∧
    (∃ g', applyNote ops nt w.graph nt.ixs = some g' ∧
      Worker.handle_item ops w (Message.note nt) =
        some { graph := g',
               from_worker :=
                Queue.send_item w.from_worker (Message.note nt) }) ∧
    (∃ w2 m2, Worker.handle_item ops w (Message.node n) = some w2 ∧
      w2.graph.get_node n.ix = some { n with module := m2 } ∧
      w2.from_worker.length = w.from_worker.length +
        (if (w.graph.nodes.getD n.ix none).isSome then 1 else 0)) ∧
    (∃ w' m, Worker.handle_items ops w (ns.map Message.node) = some w' ∧
      w'.from_worker.length + 1 = w.from_worker.length + ns.length ∧
      w'.graph.get_node k =
        some { ns.getLast hns with module := m }) := by
  refine ⟨?_, ?_, ?_, ?_⟩
  · rw [Worker.handle_item, hp]
  · obtain ⟨g', hg'⟩ := applyNote_isSome ops nt nt.ixs w.graph hnt
    exact ⟨g', hg', by rw [Worker.handle_item, hg']⟩
  · have hrep := replace_ok ops w.graph n.ix (some (Message.node n))
      hn1 (Or.inl ⟨n, rfl⟩)
    rcases hn2 with hnone | ⟨c, hc⟩
    · rw [hnone] at hrep
      have hres : replaceResult ops none (some (Message.node n)) =
          some (Message.node n) := rfl
      rw [hres] at hrep
      refine ⟨{ graph := { w.graph with nodes :=
                  (w.graph.nodes.set n.ix (some (Message.node n))) },
                from_worker := w.from_worker }, n.module, ?_, ?_, ?_⟩
      · rw [Worker.handle_item, hrep]
      · rw [get_node_set_node]
        simp [hn1]
      · rw [hnone]
        simp
    · rw [hc] at hrep
      have hres : replaceResult ops (some (Message.node c))
          (some (Message.node n)) =
        some (Message.node { n with
          module := ops.migrate n.module c.module }) := rfl
      rw [hres] at hrep
      refine ⟨{ graph := { w.graph with nodes :=
                  (w.graph.nodes.set n.ix (some (Message.node
                    { n with module := (ops.migrate n.module c.module) }))) },
                from_worker := (Queue.send_item w.from_worker
                  (Message.node c)) }, ops.migrate n.module c.module,
        ?_, ?_, ?_⟩
      · rw [Worker.handle_item, hrep]
      · rw [get_node_set_node]
        simp [hn1]
      · rw [hc]
        simp [Queue.send_item, Queue.push_raw]
  · obtain ⟨n1, rest, rfl⟩ := List.exists_cons_of_ne_nil hns
    have hn1ix : n1.ix = k := hika n1 (by simp)
    have hrep := replace_ok ops w.graph n1.ix (some (Message.node n1))
      (by rw [hn1ix]; exact hk) (Or.inl ⟨n1, rfl⟩)
    rw [hn1ix, hke] at hrep
    have hres : replaceResult ops none (some (Message.node n1)) =
        some (Message.node n1) := rfl
    rw [hres] at hrep
    have hw1 : Worker.handle_item ops w (Message.node n1) =
        some { graph := { w.graph with nodes :=
                (w.graph.nodes.set k (some (Message.node n1))) },
               from_worker := w.from_worker } := by
      rw [Worker.handle_item, hn1ix, hrep]
    obtain ⟨w', m, hrun, hlen, hslot, _⟩ :=
      handle_nodes_occupied ops k rest
        { graph := { w.graph with nodes :=
            (w.graph.nodes.set k (some (Message.node n1))) },
          from_worker := w.from_worker } n1
        (by simpa using hk)
        (by exact getD_set_self' _ _ _ _ hk)
        (fun x hx => hika x (List.mem_cons_of_mem _ hx))
    refine ⟨w', m, ?_, ?_, ?_⟩
    · simpa [Worker.handle_items, hw1] using hrun
    · rw [hlen]
      simp only [List.length_cons]
      omega
    · rw [Graph.get_node, hslot, List.getLast_eq_getLastD]
      rfl

theorem worker_dispatch_witness :
    ∃ w' m,
      Worker.handle_items trivOps { graph := exW2, from_worker := [] }
          ([mkNode 1 [] [] 1 0, mkNode 1 [] [] 0 1].map Message.node) =
        some w' ∧
      w'.from_worker.length + 1 = ([] : List (Message Int Unit)).length +
        [mkNode 1 [] [] 1 0, mkNode 1 [] [] 0 1].length ∧
      w'.graph.get_node 1 =
        some { [mkNode 1 [] [] 1 0, mkNode 1 [] [] 0 1].getLast
            (by simp) with module := m } :=
  (worker_dispatch trivOps { graph := exW2, from_worker := [] }
    { ix := 0, param_ix := 0, val := 5, timestamp := 0 }
    { ixs := [0], midi_num := 1, velocity := 1, note_on := true,
      timestamp := 0 }
    (mkNode 1 [] [] 1 0) [mkNode 1 [] [] 1 0, mkNode 1 [] [] 0 1] 1
    (mkNode 0 [] [] 1 1) rfl (by decide) (by decide) (Or.inl rfl)
    (by decide) rfl (by decide) (by decide)).2.2.2

/-! ### C6 — biquad raised matrix refines two single steps -/

/-- C6: over exact real arithmetic, one application of the 4×4 matrix
`raise_matrix (svf_lp log_f res)` to `(x0, x1, s0, s1)` produces
exactly the two outputs and the final state of two successive
applications of the single-sample recurrence `y = c·s + d·x`,
`s' = A·s + b·x` — fed `x0` first, then `x1`. -/
theorem biquad_raise_matrix_two_step (log_f res x0 x1 s0 s1 : ℝ) :
    biquad_pair_step (raise_matrix (svf_lp log_f res)) x0 x1 s0 s1 =
      ((svf_single_step (svf_lp log_f res) x0 s0 s1).1,
       (svf_single_step (svf_lp log_f res) x1
          (svf_single_step (svf_lp log_f res) x0 s0 s1).2.1
          (svf_single_step (svf_lp log_f res) x0 s0 s1).2.2).1,
       (svf_single_step (svf_lp log_f res) x1
          (svf_single_step (svf_lp log_f res) x0 s0 s1).2.1
          (svf_single_step (svf_lp log_f res) x0 s0 s1).2.2).2.1,
       (svf_single_step (svf_lp log_f res) x1
          (svf_single_step (svf_lp log_f res) x0 s0 s1).2.1
          (svf_single_step (svf_lp log_f res) x0 s0 s1).2.2).2.2) := by
  simp only [biquad_pair_step, raise_matrix, svf_single_step,
    Prod.mk.injEq]
  refine ⟨by ring, by ring, by ring, by ring⟩

/-! ### C10 — ADSR Quiet invariant -/

/-- C10: `state = Quiet → value = -24` holds of `Adsr::new` and is
preserved by `process` (for every control input and every realization
of the `exp2`/`log2` intrinsics), by `handle_note`, and trivially by
the no-op `set_param`. -/
theorem adsr_quiet_value_floor {K : Type} [LinearOrderedField K]
    (exp2 log2 : K → K) (a : Adsr K) (c : Nat → K) (midi vel v : K)
    (note_on : Bool) (p ts : Nat) (h : AdsrInv a) :
    AdsrInv (Adsr.new K) ∧
    AdsrInv (Adsr.process exp2 log2 a c).1 ∧
    AdsrInv (Adsr.handle_note a midi vel note_on) ∧
    Adsr.set_param a p v ts = a := by
  refine ⟨fun _ => rfl, ?_, ?_, rfl⟩
  · unfold AdsrInv at h ⊢
    cases ha : a.state with
    | Quiet =>
        simp only [Adsr.process, ha]
        exact fun _ => h ha
    | Attack =>
        simp only [Adsr.process, ha]
        split <;> intro hq <;> simp at hq
    | Decay =>
        simp only [Adsr.process, ha]
        split <;> intro hq <;> simp at hq
    | Sustain =>
        simp only [Adsr.process, ha]
        intro hq
        simp at hq
    | Release =>
        simp only [Adsr.process, ha]
        split <;> intro hq
        · rfl
        · simp at hq
  · unfold AdsrInv
    cases note_on <;> intro hq <;> simp [Adsr.handle_note] at hq

theorem adsr_quiet_value_floor_witness :
    AdsrInv (Adsr.new ℚ) ∧
    (AdsrInv (Adsr.new ℚ) ∧
     AdsrInv (Adsr.process (fun _ => 1) (fun _ => 0) (Adsr.new ℚ)
         (fun _ => 0)).1 ∧
     AdsrInv (Adsr.handle_note (Adsr.new ℚ) 0 0 true) ∧
     Adsr.set_param (Adsr.new ℚ) 0 0 0 = Adsr.new ℚ) :=
  ⟨fun _ => rfl,
   adsr_quiet_value_floor (fun _ => 1) (fun _ => 0) (Adsr.new ℚ)
     (fun _ => 0) 0 0 0 true 0 0 (fun _ => rfl)⟩

/-! ### C8 — the self-wire assertion, amended -/

theorem writeSlice_length {γ : Type} (old new : List γ) :
    (writeSlice old new).length = old.length := by
  simp [writeSlice]
  omega

theorem nodeAt_lt_length {γ M : Type}
    (nodes : List (Option (Message γ M))) (i : Nat) (nd : GNode γ M)
    (h : nodeAt nodes i = some nd) : i < nodes.length := by
  by_contra hlt
  push_neg at hlt
  rw [nodeAt, List.getD_eq_default _ _ hlt] at h
  simp at h

/-- Looking up a node after installing a node message at slot `ix`,
slot-array form. -/
theorem nodeAt_set {γ M : Type} (nodes : List (Option (Message γ M)))
    (ix : Nat) (nd : GNode γ M) (j : Nat) :
    nodeAt (nodes.set ix (some (Message.node nd))) j =
      if j = ix ∧ ix < nodes.length then some nd else nodeAt nodes j := by
  by_cases hj : j = ix
  · subst hj
    by_cases hlen : j < nodes.length
    · rw [nodeAt, getD_set_self' _ _ _ _ hlen]
      simp [hlen, Message.get_node]
    · rw [nodeAt, List.set_eq_of_length_le (by omega)]
      simp [hlen, nodeAt]
  · rw [nodeAt, getD_set_ne' _ _ _ (fun hh => hj hh.symm)]
    simp [hj, nodeAt]

/-- What a successful `run_one_module` does to the state: it rewrites
slot `ix` with the same node, same wirings, new module state, and
output arrays of unchanged length. -/
theorem run_one_module_spec {γ M : Type} (ops : ModuleOps γ M)
    (g : Graph γ M) (ix ts : Nat) (g' : Graph γ M)
    (h : g.run_one_module ops ix ts = some g') :
    ∃ nd nd', nodeAt g.nodes ix = some nd ∧
      g'.nodes = g.nodes.set ix (some (Message.node nd')) ∧
      g'.visited = g.visited ∧
      nd'.ix = nd.ix ∧ nd'.in_buf_wiring = nd.in_buf_wiring ∧
      nd'.in_ctrl_wiring = nd.in_ctrl_wiring ∧
      nd'.out_bufs.length = nd.out_bufs.length ∧
      nd'.out_ctrl.length = nd.out_ctrl.length := by
  rw [Graph.run_one_module] at h
  cases hnd : g.get_node ix with
  | none => rw [hnd] at h; simp at h
  | some nd =>
      rw [hnd] at h
      simp only [Option.bind_eq_bind, Option.some_bind] at h
      cases hgb : gatherBufs g ix nd.in_buf_wiring 0 with
      | none => rw [hgb] at h; simp at h
      | some bi =>
          rw [hgb] at h
          simp only [Option.bind_eq_bind, Option.some_bind] at h
          cases hgc : gatherCtrl g nd.in_ctrl_wiring 0 with
          | none => rw [hgc] at h; simp at h
          | some ci =>
              rw [hgc] at h
              simp only [Option.bind_eq_bind, Option.some_bind] at h
              simp only [Option.some.injEq] at h
              subst h
              exact ⟨nd, _, hnd, rfl, rfl, rfl, rfl, rfl,
                writeSlice_length _ _, writeSlice_length _ _⟩

theorem gatherCtrl_isSome {γ M : Type} (g : Graph γ M) :
    ∀ (w : List (Nat × Nat)) (i : Nat),
      (∀ e ∈ w, ∃ src, nodeAt g.nodes e.1 = some src ∧
        e.2 < src.out_ctrl.length) →
      i + w.length ≤ MAX_CTRL →
      (gatherCtrl g w i).isSome = true := by
  intro w
  induction w with
  | nil => intro i _ _; simp [gatherCtrl]
  | cons e w' ih =>
      intro i hval hb
      obtain ⟨m, c⟩ := e
      obtain ⟨src, hsrc, hc⟩ := hval (m, c) (by simp)
      have hi : i < MAX_CTRL := by
        simp at hb
        omega
      have hget : src.out_ctrl.get? c = some (src.out_ctrl.get ⟨c, hc⟩) :=
        List.get?_eq_get hc
      rw [gatherCtrl, if_pos hi]
      have hsrc' : g.get_node m = some src := hsrc
      rw [hsrc']
      simp only [Option.some_bind, hget]
      rw [Option.isSome_map']
      apply ih
      · exact fun e he => hval e (List.mem_cons_of_mem _ he)
      · simp at hb ⊢
        omega

theorem gatherBufs_isSome_iff {γ M : Type} (g : Graph γ M) (ix : Nat) :
    ∀ (w : List (Nat × Nat)) (i : Nat),
      (∀ e ∈ w, e.1 ≠ ix → ∃ src, nodeAt g.nodes e.1 = some src ∧
        e.2 < src.out_bufs.length) →
      i + w.length ≤ MAX_BUF →
      ((gatherBufs g ix w i).isSome = true ↔ ∀ e ∈ w, e.1 ≠ ix) := by
  intro w
  induction w with
  | nil => intro i _ _; simp [gatherBufs]
  | cons e w' ih =>
      intro i hval hb
      obtain ⟨m, b⟩ := e
      by_cases hm : ix = m
      · rw [gatherBufs, if_pos hm]
        simp only [Option.isSome_none, Bool.false_eq_true, false_iff]
        intro hall
        exact hall (m, b) (by simp) hm.symm
      · obtain ⟨src, hsrc, hcb⟩ :=
          hval (m, b) (by simp) (fun hh => hm hh.symm)
        have hi : i < MAX_BUF := by
          simp at hb
          omega
        have hget : src.out_bufs.get? b =
            some (src.out_bufs.get ⟨b, hcb⟩) := List.get?_eq_get hcb
        have hsrc' : g.get_node m = some src := hsrc
        rw [gatherBufs, if_neg hm, if_pos hi, hsrc']
        simp only [Option.some_bind, hget]
        rw [Option.isSome_map']
        have hrec := ih (i + 1)
          (fun e he hne => hval e (List.mem_cons_of_mem _ he) hne)
          (by simp at hb ⊢; omega)
        rw [hrec]
        constructor
        · intro hall e he
          rcases List.mem_cons.mp he with rfl | he'
          · exact fun hh => hm hh.symm
          · exact hall e he'
        · exact fun hall e he => hall e (List.mem_cons_of_mem _ he)

/-- Under validity of the evaluated node, `run_one_module` succeeds
exactly when the node has no buffer self-wire. -/
theorem run_one_module_isSome_iff {γ M : Type} (ops : ModuleOps γ M)
    (g : Graph γ M) (ix ts : Nat) (hv : ValidAt g.nodes ix) :
    ((g.run_one_module ops ix ts).isSome = true ↔
      BufSelfWireFree g.nodes ix) := by
  obtain ⟨nd, hnd, hb16, hc16, hbval, hcval⟩ := hv
  have hnd' : g.get_node ix = some nd := hnd
  rw [Graph.run_one_module, hnd']
  simp only [Option.bind_eq_bind, Option.some_bind]
  have hctrl := gatherCtrl_isSome g nd.in_ctrl_wiring 0 hcval
    (by simpa using hc16)
  obtain ⟨ci, hci⟩ := Option.isSome_iff_exists.mp hctrl
  have hbufs := gatherBufs_isSome_iff g ix nd.in_buf_wiring 0 hbval
    (by simpa using hb16)
  constructor
  · intro hsome nd2 hnd2 e he
    rw [hnd] at hnd2
    cases Option.some.inj hnd2
    cases hgb : gatherBufs g ix nd.in_buf_wiring 0 with
    | none => rw [hgb] at hsome; simp at hsome
    | some bi =>
        have : (gatherBufs g ix nd.in_buf_wiring 0).isSome = true := by
          rw [hgb]; rfl
        exact (hbufs.mp this) e he
  · intro hfree
    have : (gatherBufs g ix nd.in_buf_wiring 0).isSome = true :=
      hbufs.mpr (hfree nd hnd)
    obtain ⟨bi, hbi⟩ := Option.isSome_iff_exists.mp this
    rw [hbi]
    simp only [Option.some_bind, hci]
    rcases hpt : ops.process_ts nd.module ci nd.out_ctrl bi
        nd.out_bufs ts with ⟨m', co, bo⟩
    simp [hpt]

/-- A successful module evaluation at `ix` preserves validity at every
slot. -/
theorem validAt_preserved {γ M : Type} (ops : ModuleOps γ M)
    (g : Graph γ M) (ix ts : Nat) (g' : Graph γ M)
    (h : g.run_one_module ops ix ts = some g') (j : Nat)
    (hv : ValidAt g.nodes j) : ValidAt g'.nodes j := by
  obtain ⟨nd, nd', hnd, hnodes, _, _, hbw, hcw, hob, hoc⟩ :=
    run_one_module_spec ops g ix ts g' h
  have hlen : ix < g.nodes.length := nodeAt_lt_length _ _ _ hnd
  obtain ⟨ndj, hndj, hjb, hjc, hjbv, hjcv⟩ := hv
  have hsrcAt : ∀ s : Nat, ∀ src : GNode γ M, nodeAt g.nodes s = some src →
      ∃ src', nodeAt g'.nodes s = some src' ∧
        src'.out_bufs.length = src.out_bufs.length ∧
        src'.out_ctrl.length = src.out_ctrl.length := by
    intro s src hsrc
    rw [hnodes, nodeAt_set]
    by_cases hs : s = ix
    · subst hs
      rw [hsrc] at hnd
      cases Option.some.inj hnd
      exact ⟨nd', by simp [hlen], hob, hoc⟩
    · exact ⟨src, by simp [hs, hsrc], rfl, rfl⟩
  by_cases hj : j = ix
  · subst hj
    rw [hndj] at hnd
    cases Option.some.inj hnd
    refine ⟨nd', ?_, by rw [hbw]; exact hjb, by rw [hcw]; exact hjc,
      ?_, ?_⟩
    · rw [hnodes, nodeAt_set]
      simp [hlen]
    · rw [hbw]
      intro e he hne
      obtain ⟨src, hsrc, hlt⟩ := hjbv e he hne
      obtain ⟨src', hsrc', hb', _⟩ := hsrcAt e.1 src hsrc
      exact ⟨src', hsrc', by rw [hb']; exact hlt⟩
    · rw [hcw]
      intro e he
      obtain ⟨src, hsrc, hlt⟩ := hjcv e he
      obtain ⟨src', hsrc', _, hc'⟩ := hsrcAt e.1 src hsrc
      exact ⟨src', hsrc', by rw [hc']; exact hlt⟩
  · refine ⟨ndj, ?_, hjb, hjc, ?_, ?_⟩
    · rw [hnodes, nodeAt_set]
      simp [hj, hndj]
    · intro e he hne
      obtain ⟨src, hsrc, hlt⟩ := hjbv e he hne
      obtain ⟨src', hsrc', hb', _⟩ := hsrcAt e.1 src hsrc
      exact ⟨src', hsrc', by rw [hb']; exact hlt⟩
    · intro e he
      obtain ⟨src, hsrc, hlt⟩ := hjcv e he
      obtain ⟨src', hsrc', _, hc'⟩ := hsrcAt e.1 src hsrc
      exact ⟨src', hsrc', by rw [hc']; exact hlt⟩

/-- A successful module evaluation neither introduces nor removes
buffer self-wires anywhere. -/
theorem bufFree_preserved_iff {γ M : Type} (ops : ModuleOps γ M)
    (g : Graph γ M) (ix ts : Nat) (g' : Graph γ M)
    (h : g.run_one_module ops ix ts = some g') (j : Nat) :
    (BufSelfWireFree g'.nodes j ↔ BufSelfWireFree g.nodes j) := by
  obtain ⟨nd, nd', hnd, hnodes, _, _, hbw, _, _, _⟩ :=
    run_one_module_spec ops g ix ts g' h
  have hlen : ix < g.nodes.length := nodeAt_lt_length _ _ _ hnd
  constructor
  · intro hf nd2 hnd2 e he
    by_cases hj : j = ix
    · subst hj
      rw [hnd] at hnd2
      cases Option.some.inj hnd2
      refine hf nd' ?_ e (by rw [hbw]; exact he)
      rw [hnodes, nodeAt_set]
      simp [hlen]
    · refine hf nd2 ?_ e he
      rw [hnodes, nodeAt_set]
      simp [hj, hnd2]
  · intro hf nd2 hnd2 e he
    rw [hnodes, nodeAt_set] at hnd2
    by_cases hj : j = ix
    · subst hj
      rw [if_pos ⟨rfl, hlen⟩] at hnd2
      cases Option.some.inj hnd2
      rw [hbw] at he
      exact hf nd hnd e he
    · rw [if_neg (by simp [hj])] at hnd2
      exact hf nd2 hnd2 e he

theorem runOrder_isSome_iff {γ M : Type} (ops : ModuleOps γ M)
    (ts : Nat) :
    ∀ (order : List Nat) (g : Graph γ M),
      (∀ ix ∈ order, ValidAt g.nodes ix) →
      ((runOrder ops g order ts).isSome = true ↔
        ∀ ix ∈ order, BufSelfWireFree g.nodes ix) := by
  intro order
  induction order with
  | nil => intro g _; simp [runOrder]
  | cons ix rest ih =>
      intro g hval
      have hv := hval ix (by simp)
      by_cases hfree : BufSelfWireFree g.nodes ix
      · have hsome := (run_one_module_isSome_iff ops g ix ts hv).mpr hfree
        obtain ⟨g1, hg1⟩ := Option.isSome_iff_exists.mp hsome
        have hrest := ih { g1 with
            visited := g1.visited.set ix VisitedState.NotVisited }
          (fun j hj => validAt_preserved ops g ix ts g1 hg1 j
            (hval j (List.mem_cons_of_mem _ hj)))
        rw [runOrder, hg1]
        simp only [Option.bind_eq_bind, Option.some_bind]
        rw [hrest]
        constructor
        · intro hall e he
          rcases List.mem_cons.mp he with rfl | he'
          · exact hfree
          · exact (bufFree_preserved_iff ops g ix ts g1 hg1 e).mp
              (hall e he')
        · intro hall e he'
          exact (bufFree_preserved_iff ops g ix ts g1 hg1 e).mpr
            (hall e (List.mem_cons_of_mem _ he'))
      · have hnone : g.run_one_module ops ix ts = none := by
          cases hro : g.run_one_module ops ix ts with
          | none => rfl
          | some g1 =>
              exact absurd ((run_one_module_isSome_iff ops g ix ts
                hv).mp (by rw [hro]; rfl)) hfree
        rw [runOrder, hnone]
        simp only [Option.bind_eq_bind, Option.none_bind,
          Option.isSome_none, Bool.false_eq_true, false_iff]
        intro hall
        exact hfree (hall ix (by simp))

/-- C8 (amended): the assertion `assert!(module_ix != mod_ix)` guards
buffer inputs only.  Given the nodes `run_graph` evaluates (the
topological order it computed) and their validity, evaluation succeeds
exactly when none of them has a *buffer* self-wire; a buffer self-wire
panics, while control self-wires pass (see the counterexample). -/
theorem buf_self_wire_asserted_amended {γ M : Type}
    (ops : ModuleOps γ M) (g : Graph γ M) (root ts : Nat)
    (order : List Nat) (v' : List VisitedState)
    (htopo : g.topo_sort root = some (order, v'))
    (hvalid : ∀ ix ∈ order, ValidAt g.nodes ix) :
    ((g.run_graph ops root ts).isSome = true ↔
      ∀ ix ∈ order, BufSelfWireFree g.nodes ix) := by
  rw [Graph.run_graph, htopo]
  simp only [Option.bind_eq_bind, Option.some_bind]
  exact runOrder_isSome_iff ops ts order
    { g with visited := v' } hvalid

theorem buf_self_wire_asserted_amended_witness :
    (exW.run_graph trivOps 0 0).isSome = true ↔
      ∀ ix ∈ [0], BufSelfWireFree exW.nodes ix :=
  buf_self_wire_asserted_amended trivOps exW 0 0 [0]
    [VisitedState.Scanned] (by decide)
    (by
      intro ix hix
      rcases List.mem_singleton.mp hix with rfl
      exact ⟨mkNode 0 [] [] 1 1, rfl, by decide, by decide,
        fun e he => absurd he (List.not_mem_nil e),
        fun e he => absurd he (List.not_mem_nil e)⟩)

/-! ### C5 — determinism of `run_graph` across invocations -/

theorem getD_of_get?_some {γ : Type} {l : List γ} {i : Nat} {x d : γ}
    (h : l.get? i = some x) : l.getD i d = x := by
  rw [List.getD_eq_getElem?_getD, ← List.get?_eq_getElem?, h]
  rfl

theorem lt_of_get?_some {γ : Type} {l : List γ} {i : Nat} {x : γ}
    (h : l.get? i = some x) : i < l.length :=
  (List.get?_eq_some.mp h).1

/-- `scanChildren` preserves the topo-sort invariants: the `result`
nodes stay `Scanned`, and the marked nodes are exactly the stack and
result members; the stack only grows. -/
theorem scanChildren_invs (result : List Nat) :
    ∀ (w : List (Nat × Nat)) (v : List VisitedState) (s : List Nat)
      (v2 : List VisitedState) (s2 : List Nat),
      scanChildren w v s = some (v2, s2) →
      (∀ i ∈ result, v.getD i VisitedState.NotVisited =
        VisitedState.Scanned) →
      (∀ i, v.getD i VisitedState.NotVisited ≠ VisitedState.NotVisited ↔
        (i ∈ s ∨ i ∈ result)) →
      v2.length = v.length ∧
      (∀ i ∈ result, v2.getD i VisitedState.NotVisited =
        VisitedState.Scanned) ∧
      (∀ i, v2.getD i VisitedState.NotVisited ≠ VisitedState.NotVisited ↔
        (i ∈ s2 ∨ i ∈ result)) ∧
      (∀ i ∈ s, i ∈ s2) := by
  intro w
  induction w with
  | nil =>
      intro v s v2 s2 h h1 h2
      simp only [scanChildren, Option.some.injEq, Prod.mk.injEq] at h
      obtain ⟨rfl, rfl⟩ := h
      exact ⟨rfl, h1, h2, fun i hi => hi⟩
  | cons e w' ih =>
      intro v s v2 s2 h h1 h2
      obtain ⟨ix, q⟩ := e
      simp only [scanChildren] at h
      cases hvix : v.get? ix with
      | none => rw [hvix] at h; simp at h
      | some st =>
          simp only [hvix] at h
          by_cases hst : st = VisitedState.NotVisited
          · rw [if_pos hst] at h
            have hlt : ix < v.length := lt_of_get?_some hvix
            have hgd : v.getD ix VisitedState.NotVisited =
                VisitedState.NotVisited := by
              rw [getD_of_get?_some hvix, hst]
            have hnotr : ix ∉ result := by
              intro hr
              rw [h1 ix hr] at hgd
              exact absurd hgd (by simp)
            have h1' : ∀ i ∈ result,
                (v.set ix VisitedState.Pushed).getD i
                  VisitedState.NotVisited = VisitedState.Scanned := by
              intro i hi
              have hne : ix ≠ i := fun hh => hnotr (hh.symm ▸ hi)
              rw [getD_set_ne' _ _ _ hne]
              exact h1 i hi
            have h2' : ∀ i, (v.set ix VisitedState.Pushed).getD i
                VisitedState.NotVisited ≠ VisitedState.NotVisited ↔
                (i ∈ ix :: s ∨ i ∈ result) := by
              intro i
              by_cases hi : i = ix
              · subst hi
                rw [getD_set_self' _ _ _ _ hlt]
                simp
              · rw [getD_set_ne' _ _ _ (fun hh => hi hh.symm)]
                rw [h2 i]
                simp [hi]
            obtain ⟨hl, ha, hb, hc⟩ := ih _ _ _ _ h h1' h2'
            refine ⟨by rw [hl]; simp, ha, hb, ?_⟩
            exact fun i hi => hc i (List.mem_cons_of_mem _ hi)
          · rw [if_neg hst] at h
            exact ih _ _ _ _ h h1 h2

/-- When the stack has emptied, the invariants pin the visit states
down completely: `Scanned` on the result, `NotVisited` elsewhere. -/
theorem topo_final_of_empty (v : List VisitedState) (result : List Nat)
    (h1 : ∀ i ∈ result, v.getD i VisitedState.NotVisited =
      VisitedState.Scanned)
    (h2 : ∀ i, v.getD i VisitedState.NotVisited ≠
        VisitedState.NotVisited ↔
      (i ∈ ([] : List Nat) ∨ i ∈ result)) :
    ∀ i, v.getD i VisitedState.NotVisited =
      if i ∈ result then VisitedState.Scanned
      else VisitedState.NotVisited := by
  intro i
  by_cases hi : i ∈ result
  · rw [if_pos hi]
    exact h1 i hi
  · rw [if_neg hi]
    by_contra hne
    rcases (h2 i).mp hne with hin | hin
    · exact absurd hin (List.not_mem_nil i)
    · exact hi hin

/-- The `while` loop of `topo_sort` maintains the invariants and, on
termination, leaves exactly the result-list members `Scanned` and every
other node `NotVisited`. -/
theorem topoLoop_final {γ M : Type} (g : Graph γ M) :
    ∀ (fuel : Nat) (v : List VisitedState) (stack result order : List Nat)
      (v' : List VisitedState),
      topoLoop g fuel v stack result = some (order, v') →
      (∀ i ∈ result, v.getD i VisitedState.NotVisited =
        VisitedState.Scanned) →
      (∀ i, v.getD i VisitedState.NotVisited ≠
          VisitedState.NotVisited ↔ (i ∈ stack ∨ i ∈ result)) →
      v'.length = v.length ∧
      (∀ i, v'.getD i VisitedState.NotVisited =
        if i ∈ order then VisitedState.Scanned
        else VisitedState.NotVisited) := by
  intro fuel
  induction fuel with
  | zero =>
      intro v stack result order v' h h1 h2
      cases stack with
      | nil =>
          simp only [topoLoop, Option.some.injEq, Prod.mk.injEq] at h
          obtain ⟨rfl, rfl⟩ := h
          exact ⟨rfl, topo_final_of_empty v _ h1 h2⟩
      | cons top rest => simp [topoLoop] at h
  | succ fuel ih =>
      intro v stack result order v' h h1 h2
      cases stack with
      | nil =>
          simp only [topoLoop, Option.some.injEq, Prod.mk.injEq] at h
          obtain ⟨rfl, rfl⟩ := h
          exact ⟨rfl, topo_final_of_empty v _ h1 h2⟩
      | cons top rest =>
          simp only [topoLoop] at h
          cases hvt : v.get? top with
          | none => rw [hvt] at h; simp at h
          | some vtop =>
              simp only [hvt] at h
              have hlt : top < v.length := lt_of_get?_some hvt
              by_cases hp : vtop = VisitedState.Pushed
              · rw [if_pos hp] at h
                cases hnd : (g.nodes.getD top none).bind Message.get_node
                    with
                | none => rw [hnd] at h; simp at h
                | some node =>
                    simp only [hnd] at h
                    cases hsc : scanChildren
                        (node.in_buf_wiring ++ node.in_ctrl_wiring)
                        (v.set top VisitedState.Scanned) (top :: rest)
                        with
                    | none => rw [hsc] at h; simp at h
                    | some pr =>
                        obtain ⟨v2, stack2⟩ := pr
                        have h1' : ∀ i ∈ result,
                            (v.set top VisitedState.Scanned).getD i
                              VisitedState.NotVisited =
                            VisitedState.Scanned := by
                          intro i hi
                          by_cases hti : i = top
                          · subst hti
                            rw [getD_set_self' _ _ _ _ hlt]
                          · have hne : top ≠ i := fun hh => hti hh.symm
                            rw [getD_set_ne' _ _ _ hne]
                            exact h1 i hi
                        have h2' : ∀ i,
                            (v.set top VisitedState.Scanned).getD i
                                VisitedState.NotVisited ≠
                              VisitedState.NotVisited ↔
                            (i ∈ top :: rest ∨ i ∈ result) := by
                          intro i
                          by_cases hti : i = top
                          · subst hti
                            rw [getD_set_self' _ _ _ _ hlt]
                            simp
                          · have hne : top ≠ i := fun hh => hti hh.symm
                            rw [getD_set_ne' _ _ _ hne, h2 i]
                        obtain ⟨hlen2, h1s, h2s, hsup⟩ :=
                          scanChildren_invs result _ _ _ _ _ hsc h1' h2'
                        cases stack2 with
                        | nil =>
                            exact absurd (hsup top (by simp))
                              (List.not_mem_nil top)
                        | cons top2 rest2 =>
                            simp only [hsc] at h
                            cases hvt2 : v2.get? top2 with
                            | none => rw [hvt2] at h; simp at h
                            | some vtop2 =>
                                simp only [hvt2] at h
                                by_cases hs2 :
                                    vtop2 = VisitedState.Scanned
                                · rw [if_pos hs2] at h
                                  have h1n : ∀ i ∈ result ++ [top2],
                                      v2.getD i VisitedState.NotVisited =
                                      VisitedState.Scanned := by
                                    intro i hi
                                    rcases List.mem_append.mp hi with
                                      hi | hi
                                    · exact h1s i hi
                                    · rcases List.mem_singleton.mp hi
                                        with rfl
                                      rw [getD_of_get?_some hvt2, hs2]
                                  have h2n : ∀ i,
                                      v2.getD i VisitedState.NotVisited ≠
                                        VisitedState.NotVisited ↔
                                      (i ∈ rest2 ∨
                                        i ∈ result ++ [top2]) := by
                                    intro i
                                    rw [h2s i]
                                    simp only [List.mem_append,
                                      List.mem_cons, List.mem_singleton,
                                      List.not_mem_nil, or_false]
                                    tauto
                                  obtain ⟨hl, hres⟩ := ih v2 rest2
                                    (result ++ [top2]) order v' h h1n h2n
                                  refine ⟨?_, hres⟩
                                  rw [hl, hlen2, List.length_set]
                                · rw [if_neg hs2] at h
                                  obtain ⟨hl, hres⟩ := ih v2
                                    (top2 :: rest2) result order v' h
                                    h1s h2s
                                  refine ⟨?_, hres⟩
                                  rw [hl, hlen2, List.length_set]
              · rw [if_neg hp] at h
                simp only [hvt] at h
                by_cases hs2 : vtop = VisitedState.Scanned
                · rw [if_pos hs2] at h
                  have h1n : ∀ i ∈ result ++ [top],
                      v.getD i VisitedState.NotVisited =
                      VisitedState.Scanned := by
                    intro i hi
                    rcases List.mem_append.mp hi with hi | hi
                    · exact h1 i hi
                    · rcases List.mem_singleton.mp hi with rfl
                      rw [getD_of_get?_some hvt, hs2]
                  have h2n : ∀ i,
                      v.getD i VisitedState.NotVisited ≠
                        VisitedState.NotVisited ↔
                      (i ∈ rest ∨ i ∈ result ++ [top]) := by
                    intro i
                    rw [h2 i]
                    simp only [List.mem_append, List.mem_cons,
                      List.mem_singleton, List.not_mem_nil, or_false]
                    tauto
                  exact ih v rest (result ++ [top]) order v' h h1n h2n
                · rw [if_neg hs2] at h
                  exact ih v (top :: rest) result order v' h h1 h2

/-- After `topo_sort` from a clean scratch state, exactly the members
of the returned order are `Scanned`, everything else `NotVisited`. -/
theorem topo_sort_final {γ M : Type} (g : Graph γ M) (root : Nat)
    (order : List Nat) (v' : List VisitedState)
    (h : g.topo_sort root = some (order, v'))
    (hclean : g.visited =
      List.replicate g.nodes.length VisitedState.NotVisited) :
    v'.length = g.visited.length ∧
    (∀ i, v'.getD i VisitedState.NotVisited =
      if i ∈ order then VisitedState.Scanned
      else VisitedState.NotVisited) := by
  rw [Graph.topo_sort] at h
  by_cases hr : root < g.visited.length
  · rw [if_pos hr] at h
    have hreplicate : ∀ i, g.visited.getD i VisitedState.NotVisited =
        VisitedState.NotVisited := by
      intro i
      rw [hclean, List.getD_eq_getElem?_getD]
      simp
    have h1 : ∀ i ∈ ([] : List Nat),
        (g.visited.set root VisitedState.Pushed).getD i
          VisitedState.NotVisited = VisitedState.Scanned := by
      simp
    have h2 : ∀ i, (g.visited.set root VisitedState.Pushed).getD i
          VisitedState.NotVisited ≠ VisitedState.NotVisited ↔
        (i ∈ [root] ∨ i ∈ ([] : List Nat)) := by
      intro i
      by_cases hi : i = root
      · subst hi
        rw [getD_set_self' _ _ _ _ hr]
        simp
      · have hne : root ≠ i := fun hh => hi hh.symm
        rw [getD_set_ne' _ _ _ hne, hreplicate i]
        simp [hi]
    obtain ⟨hl, hres⟩ := topoLoop_final g _ _ _ _ _ _ h h1 h2
    exact ⟨by rw [hl, List.length_set], hres⟩
  · rw [if_neg hr] at h
    simp at h

/-- The evaluation loop only resets visit states (one per evaluated
node) and preserves the slot count. -/
theorem runOrder_visited {γ M : Type} (ops : ModuleOps γ M) (ts : Nat) :
    ∀ (order : List Nat) (g g' : Graph γ M),
      runOrder ops g order ts = some g' →
      g'.visited = order.foldl
        (fun v ix => v.set ix VisitedState.NotVisited) g.visited ∧
      g'.nodes.length = g.nodes.length := by
  intro order
  induction order with
  | nil =>
      intro g g' h
      simp only [runOrder, Option.some.injEq] at h
      subst h
      exact ⟨rfl, rfl⟩
  | cons ix rest ih =>
      intro g g' h
      rw [runOrder] at h
      cases hro : g.run_one_module ops ix ts with
      | none => rw [hro] at h; simp at h
      | some g1 =>
          rw [hro] at h
          simp only [Option.bind_eq_bind, Option.some_bind] at h
          obtain ⟨nd, nd', _, hnodes, hvis, _⟩ :=
            run_one_module_spec ops g ix ts g1 hro
          obtain ⟨hv, hn⟩ := ih _ _ h
          constructor
          · rw [hv, List.foldl_cons, hvis]
          · rw [hn]
            simp [hnodes]

theorem foldl_set_NV :
    ∀ (order : List Nat) (v : List VisitedState),
      (∀ i, i ∉ order → v.getD i VisitedState.NotVisited =
        VisitedState.NotVisited) →
      (∀ i, (order.foldl (fun v ix => v.set ix VisitedState.NotVisited)
          v).getD i VisitedState.NotVisited = VisitedState.NotVisited) ∧
      (order.foldl (fun v ix => v.set ix VisitedState.NotVisited)
        v).length = v.length := by
  intro order
  induction order with
  | nil => exact fun v hv => ⟨fun i => hv i (List.not_mem_nil i), rfl⟩
  | cons ix rest ih =>
      intro v hv
      simp only [List.foldl_cons]
      have hv' : ∀ i, i ∉ rest →
          (v.set ix VisitedState.NotVisited).getD i
            VisitedState.NotVisited = VisitedState.NotVisited := by
        intro i hi
        by_cases hix : i = ix
        · subst hix
          by_cases hlen : i < v.length
          · rw [getD_set_self' _ _ _ _ hlen]
          · rw [List.set_eq_of_length_le (by omega),
              List.getD_eq_default _ _ (by omega)]
        · have hne : ix ≠ i := fun hh => hix hh.symm
          rw [getD_set_ne' _ _ _ hne]
          exact hv i (by simp [List.mem_cons, hix, hi])
      obtain ⟨ha, hb⟩ := ih _ hv'
      exact ⟨ha, by rw [hb, List.length_set]⟩

theorem eq_replicate_NV (v : List VisitedState)
    (h : ∀ i, v.getD i VisitedState.NotVisited =
      VisitedState.NotVisited) :
    v = List.replicate v.length VisitedState.NotVisited := by
  apply List.ext_getElem (by simp)
  intro n h1 h2
  have hh := h n
  rw [List.getD_eq_getElem _ _ h1] at hh
  rw [hh, List.getElem_replicate]

/-- C5: with a clean scratch state (the invariant the graph starts
with and, by the second conjunct, re-establishes after every run), the
output of `run_graph` is a function of the installed node set and
wiring alone: any graph with the same slots produces the bit-identical
result, and the scratch state is clean again afterwards, so repeated
invocations behave identically. -/
theorem run_graph_deterministic {γ M : Type} (ops : ModuleOps γ M)
    (g : Graph γ M) (root ts : Nat) (g' : Graph γ M)
    (hclean : g.visited =
      List.replicate g.nodes.length VisitedState.NotVisited)
    (hrun : g.run_graph ops root ts = some g') :
    (∀ g2 : Graph γ M, g2.nodes = g.nodes →
      g2.visited =
        List.replicate g2.nodes.length VisitedState.NotVisited →
      g2.run_graph ops root ts = some g') ∧
    g'.visited =
      List.replicate g'.nodes.length VisitedState.NotVisited := by
  constructor
  · intro g2 hn hv
    have hg2 : g2 = g := by
      cases g2
      cases g
      simp_all
    rw [hg2]
    exact hrun
  · rw [Graph.run_graph] at hrun
    cases htopo : g.topo_sort root with
    | none => rw [htopo] at hrun; simp at hrun
    | some pr =>
        obtain ⟨order, v'⟩ := pr
        rw [htopo] at hrun
        simp only [Option.bind_eq_bind, Option.some_bind] at hrun
        obtain ⟨hvlen, hvchar⟩ := topo_sort_final g root order v' htopo
          hclean
        have hg'v : g'.visited = order.foldl
            (fun v ix => v.set ix VisitedState.NotVisited) v' :=
          (runOrder_visited ops ts order _ g' hrun).1
        have hg'n : g'.nodes.length = g.nodes.length :=
          (runOrder_visited ops ts order _ g' hrun).2
        have hnotin : ∀ i, i ∉ order →
            v'.getD i VisitedState.NotVisited =
            VisitedState.NotVisited := by
          intro i hi
          rw [hvchar i, if_neg hi]
        obtain ⟨hallNV, hlen⟩ := foldl_set_NV order v' hnotin
        have hfin : ∀ i, g'.visited.getD i VisitedState.NotVisited =
            VisitedState.NotVisited := by
          intro i
          rw [hg'v]
          exact hallNV i
        have hrep : g'.visited =
            List.replicate g'.visited.length VisitedState.NotVisited :=
          eq_replicate_NV _ hfin
        rw [hrep]
        congr 1
        rw [hg'v, hlen, hvlen, hclean, List.length_replicate, hg'n]

theorem run_graph_deterministic_witness :
    exW.run_graph trivOps 0 0 = some exW ∧
    ((∀ g2 : Graph Int Unit, g2.nodes = exW.nodes →
        g2.visited =
          List.replicate g2.nodes.length VisitedState.NotVisited →
        g2.run_graph trivOps 0 0 = some exW) ∧
      exW.visited =
        List.replicate exW.nodes.length VisitedState.NotVisited) :=
  ⟨by decide,
   run_graph_deterministic trivOps exW 0 0 exW rfl (by decide)⟩

/-! ### C9 — Quit -/

/-- C9: a drained `Quit` item makes `handle_item` return immediately:
the graph is untouched, nothing is dispatched, and nothing is forwarded
to the outbound queue. -/
theorem quit_stops_processing (ops : ModuleOps γ M) (w : WorkerSt γ M) :
    Worker.handle_item ops w Message.quit = some w := rfl

end SynthIO
